import Mathlib

/-!
Verification of the rssh wire-format layer.

The definitions below are a shallow embedding of the Rust sources:
* `src/rust-ssh/src/packet/mod.rs` (`Packet::encode`),
* `src/rust-ssh/src/message/mod.rs` (`NameList::encode`, `KexInitMessage::encode`,
  `MessageType`),
* `src/rust-ssh/src/identification/mod.rs` (`Identification::try_encode_to_string`,
  `Identification::decode_from_string`, `SSHVersion`, `IdentificationError`).

Modelling conventions:
* Rust `String`/`&str` values are `List Char`; Rust's byte-oriented
  `String::len`, `str::find` and slice indexing are modelled with explicit
  UTF-8 byte arithmetic (`utf8Len`, `byteSliceRange`, ...).
* Rust byte-slicing panics (index out of bounds, index not on a character
  boundary, inverted range, arithmetic overflow on `usize` subtraction) are
  modelled as `none` in an outer `Option`; a typed `Result` is the inner
  `Except`.
* `Vec<u8>` is `List Nat`; `as u8` / `as u32` casts are `% 256` / `% 2 ^ 32`.
-/

/-- Number of bytes of the UTF-8 encoding of a character (Rust `char::len_utf8`). -/
def utf8SizeN (c : Char) : Nat :=
  if c.toNat < 128 then 1
  else if c.toNat < 2048 then 2
  else if c.toNat < 65536 then 3
  else 4

/-- UTF-8 byte length of a string (Rust `String::len` on the rendered text). -/
def utf8Len : List Char → Nat
  | [] => 0
  | c :: cs => utf8SizeN c + utf8Len cs

/-- The UTF-8 encoding of one character, as byte values. -/
def charUtf8 (c : Char) : List Nat :=
  if c.toNat < 128 then [c.toNat]
  else if c.toNat < 2048 then [192 + c.toNat / 64, 128 + c.toNat % 64]
  else if c.toNat < 65536 then
    [224 + c.toNat / 4096, 128 + c.toNat / 64 % 64, 128 + c.toNat % 64]
  else
    [240 + c.toNat / 262144, 128 + c.toNat / 4096 % 64,
      128 + c.toNat / 64 % 64, 128 + c.toNat % 64]

/-- The UTF-8 encoding of a string, as byte values. -/
def utf8BytesL : List Char → List Nat
  | [] => []
  | c :: cs => charUtf8 c ++ utf8BytesL cs

/-- Big-endian bytes of a 32-bit value (Rust `u32::to_be_bytes`). -/
def toBeBytes32 (n : Nat) : List Nat :=
  [n / 16777216 % 256, n / 65536 % 256, n / 256 % 256, n % 256]

/-- Little-endian bytes of a 32-bit value (Rust `u32::to_le_bytes`). -/
def toLeBytes32 (n : Nat) : List Nat :=
  [n % 256, n / 256 % 256, n / 65536 % 256, n / 16777216 % 256]

/-- Read back a 4-byte big-endian value. -/
def fromBeBytes4 : List Nat → Nat
  | a :: b :: c :: d :: _ => ((a * 256 + b) * 256 + c) * 256 + d
  | _ => 0

/-- `startsWithL pat l` is Rust `str::starts_with` for a literal pattern. -/
def startsWithL : List Char → List Char → Bool
  | [], _ => true
  | _ :: _, [] => false
  | p :: ps, c :: cs => if p = c then startsWithL ps cs else false

/-- `endsWithL pat l` is Rust `str::ends_with` for a literal pattern. -/
def endsWithL (pat l : List Char) : Bool :=
  startsWithL pat.reverse l.reverse

/-- First split piece: Rust `s.split(pat).next()` for a one-character pattern. -/
def takeUntilChar (t : Char) : List Char → List Char
  | [] => []
  | c :: cs => if c = t then [] else c :: takeUntilChar t cs

/-- Rust `str::contains` for a character pattern. -/
def containsChar : List Char → Char → Bool
  | [], _ => false
  | c :: cs, t => if c = t then true else containsChar cs t

/-- Checked `usize` subtraction: Rust `a - b`, panicking (`none`) on underflow. -/
def subChk (a b : Nat) : Option Nat :=
  if b ≤ a then some (a - b) else none

/-- Drop a prefix of exactly `k` UTF-8 bytes; `none` when `k` is past the end
of the string or does not fall on a character boundary (a Rust slicing panic). -/
def dropBytesChk : List Char → Nat → Option (List Char)
  | l, 0 => some l
  | [], _ + 1 => none
  | c :: cs, k + 1 =>
    if k + 1 < utf8SizeN c then none
    else dropBytesChk cs (k + 1 - utf8SizeN c)

/-- Take a prefix of exactly `k` UTF-8 bytes; `none` when `k` is past the end
of the string or does not fall on a character boundary (a Rust slicing panic). -/
def takeBytesChk : List Char → Nat → Option (List Char)
  | _, 0 => some []
  | [], _ + 1 => none
  | c :: cs, k + 1 =>
    if k + 1 < utf8SizeN c then none
    else
      match takeBytesChk cs (k + 1 - utf8SizeN c) with
      | none => none
      | some t => some (c :: t)

/-- Rust string slicing `&s[a..b]` by byte indices; `none` models the panic on
an inverted range, an out-of-range index, or an index off a char boundary. -/
def byteSliceRange (l : List Char) (a b : Nat) : Option (List Char) :=
  if b < a then none
  else
    match dropBytesChk l a with
    | none => none
    | some t => takeBytesChk t (b - a)

/-- Byte index of the first NUL character (Rust `s.find('\0')`). -/
def findNulByteIdx : List Char → Nat → Option Nat
  | [], _ => none
  | c :: cs, acc =>
    if c = '\x00' then some acc else findNulByteIdx cs (acc + utf8SizeN c)

/-- Modelled from the spec: the `mac` module is declared in `lib.rs` but its
source is not under `src/`; §6 of the spec gives the Mac capability interface
(`tag_size`, `compute`, `verify`). Only the identity of a `Mac` value matters
here, because `Packet::encode` (which is in `src/`) never consults it. -/
structure Mac where
  tag_size : Nat
deriving DecidableEq

/-- `Packet` from `src/rust-ssh/src/packet/mod.rs`: the cipher capability is
represented by the only datum `Packet::encode` reads from it, its block size. -/
structure Packet where
  payload : List Nat
  mac_type : Mac
  block_size : Nat

/-- The padding length computed inside `Packet::encode`:
`if 8 > block { len % 8 } else { len % block }`. -/
def Packet.paddingLength (payloadLen blockSize : Nat) : Nat :=
  if 8 > blockSize then payloadLen % 8 else payloadLen % blockSize

/-- `Packet::encode`: pushes `(payload.len() as u32).to_le_bytes()`, the
padding length as one byte, then the bytes `0, 1, ..., p-1` (`i as u8`).
It never appends the payload itself nor any MAC tag. -/
def Packet.encode (p : Packet) : List Nat :=
  toLeBytes32 (p.payload.length % 2 ^ 32)
    ++ [Packet.paddingLength p.payload.length p.block_size % 256]
    ++ (List.range (Packet.paddingLength p.payload.length p.block_size)).map
        (fun i => i % 256)

/-- The comma-joined rendering of a `NameList` (its `Display` instance:
elements interspersed with `","`). An element is represented by its rendered
text. -/
def NameList.joined : List (List Char) → List Char
  | [] => []
  | [x] => x
  | x :: xs => x ++ ',' :: NameList.joined xs

/-- `NameList::encode`: the rendered text's byte length (`String::len`) as a
big-endian `u32`, then one byte per character of the rendered text
(`chars().map(|x| x as u8)`). -/
def NameList.encode (l : List (List Char)) : List Nat :=
  toBeBytes32 (utf8Len (NameList.joined l) % 2 ^ 32)
    ++ (NameList.joined l).map (fun c => c.toNat % 256)

/-- `MessageType` from `src/rust-ssh/src/message/message_type.rs`. -/
inductive MessageType
  | Disconnect
  | Ignore
  | Unimplemented
  | Debug
  | ServiceRequest
  | ServiceAccept
  | KexInit
  | NewKeys
  | UserauthRequest
  | UserauthFailure
  | UserauthSuccess
  | UserauthBanner
  | GlobalRequest
  | RequestSuccess
  | RequestFailure
  | ChannelOpen
  | ChannelOpenConfirmation
  | ChannelOpenFailure
  | ChannelWindowAdjust
  | ChannelData
  | ChannelExtendedData
  | ChannelEOF
  | ChannelClose
  | ChannelRequest
  | ChannelSuccess
  | ChannelFailure
deriving DecidableEq

/-- The numeric discriminants assigned in `message_type.rs`. -/
def messageTypeCode : MessageType → Nat
  | .Disconnect => 1
  | .Ignore => 2
  | .Unimplemented => 3
  | .Debug => 4
  | .ServiceRequest => 5
  | .ServiceAccept => 6
  | .KexInit => 20
  | .NewKeys => 21
  | .UserauthRequest => 50
  | .UserauthFailure => 51
  | .UserauthSuccess => 52
  | .UserauthBanner => 53
  | .GlobalRequest => 80
  | .RequestSuccess => 81
  | .RequestFailure => 82
  | .ChannelOpen => 90
  | .ChannelOpenConfirmation => 91
  | .ChannelOpenFailure => 92
  | .ChannelWindowAdjust => 93
  | .ChannelData => 94
  | .ChannelExtendedData => 95
  | .ChannelEOF => 96
  | .ChannelClose => 97
  | .ChannelRequest => 98
  | .ChannelSuccess => 99
  | .ChannelFailure => 100

/-- `KexInitMessage` from `src/rust-ssh/src/message/mod.rs`; each `NameList`
field is represented by the list of its elements' rendered texts. -/
structure KexInitMessage where
  cookie : List Nat
  kex_algorithms : List (List Char)
  server_host_key_algorithms : List (List Char)
  encryption_algorithms_client_to_server : List (List Char)
  encryption_algorithms_server_to_client : List (List Char)
  mac_algorithms_client_to_server : List (List Char)
  mac_algorithms_server_to_client : List (List Char)
  compression_algorithms_client_to_server : List (List Char)
  compression_algorithms_server_to_client : List (List Char)
  languages_client_to_server : List (List Char)
  languages_server_to_client : List (List Char)
  first_kex_packet_follows : Bool
  reserved : Nat

/-- `KexInitMessage::encode`: the type tag as one byte, the 16 cookie bytes,
the ten name-lists in source order, the boolean byte, then
`(0 as u32).to_be_bytes()` (the `reserved` field is not consulted). -/
def KexInitMessage.encode (m : KexInitMessage) : List Nat :=
  [messageTypeCode .KexInit % 256]
    ++ m.cookie
    ++ NameList.encode m.kex_algorithms
    ++ NameList.encode m.server_host_key_algorithms
    ++ NameList.encode m.encryption_algorithms_client_to_server
    ++ NameList.encode m.encryption_algorithms_server_to_client
    ++ NameList.encode m.mac_algorithms_client_to_server
    ++ NameList.encode m.mac_algorithms_server_to_client
    ++ NameList.encode m.compression_algorithms_client_to_server
    ++ NameList.encode m.compression_algorithms_server_to_client
    ++ NameList.encode m.languages_client_to_server
    ++ NameList.encode m.languages_server_to_client
    ++ [if m.first_kex_packet_follows then 1 else 0]
    ++ toBeBytes32 0

deriving instance DecidableEq for Except

/-- A concrete `KexInitMessage` (all-zero cookie, empty name lists), as built
in `rssh_testing/src/main.rs`. -/
def kexInitExample : KexInitMessage :=
  ⟨List.replicate 16 0, [], [], [], [], [], [], [], [], [], [], false, 0⟩

/-- `SSHVersion` from `src/rust-ssh/src/identification/ssh_version.rs`. -/
inductive SSHVersion
  | Ver2
  | Ver1 (minor : Nat)
deriving DecidableEq

/-- The `Display` instance of `SSHVersion`: `"2.0"` or `"1.{minor}"`. -/
def SSHVersion.render : SSHVersion → List Char
  | .Ver2 => "2.0".data
  | .Ver1 minor => "1.".data ++ Nat.toDigits 10 minor

/-- `IdentificationError` from
`src/rust-ssh/src/identification/identification_error.rs`. -/
inductive IdentificationError
  | MaxLengthExceeded (length : Nat) (value : List Char)
  | ContainsNullCharacter (index : Nat) (value : List Char)
  | InvalidEnding (actual : List Char)
  | InvalidStringBeginning (actual : List Char)
  | InvalidProtocolVersion (actual : List Char)
  | UnsupportedProtocolVersion (ver : List Char)
  | ExpectedSpaceSeparator (actual : Char) (value : List Char)
  | MissingSoftwareVersion
deriving DecidableEq

/-- `Identification` from `src/rust-ssh/src/identification/mod.rs`. -/
structure Identification where
  protocol_version : SSHVersion
  software_version : List Char
  comments : Option (List Char)
deriving DecidableEq

/-- `Identification::default_ident`. -/
def Identification.default_ident : Identification :=
  ⟨.Ver2, "rssh_0.1".data, none⟩

/-- The `ending` computation at the top of `try_encode_to_string`: CR LF for
version 2.0, LF for 1.99, and an early `UnsupportedProtocolVersion` return for
any other 1.x minor. -/
def endingFor : SSHVersion → Except IdentificationError (List Char)
  | .Ver2 => .ok ['\r', '\n']
  | .Ver1 minor =>
    if minor = 99 then .ok ['\n']
    else .error (.UnsupportedProtocolVersion ("1.".data ++ Nat.toDigits 10 minor))

/-- The comments fragment of the rendered banner: a space followed by the
comment text when comments are present, nothing otherwise. -/
def commentsPart : Option (List Char) -> List Char
  | some c => ' ' :: c
  | none => []

/-- The `format!("SSH-{}-{}{}{ending}", ...)` rendering inside
`try_encode_to_string`: a space is inserted before the comments only when
comments are present. -/
def Identification.renderLine (id : Identification) (ending : List Char) :
    List Char :=
  "SSH-".data ++ id.protocol_version.render ++ "-".data ++ id.software_version
    ++ commentsPart id.comments ++ ending

/-- `Identification::try_encode_to_string`: pick the ending for the protocol
version (failing early on unsupported 1.x minors), render the line, then fail
when its byte length exceeds 255 or when it contains a NUL character. -/
def Identification.tryEncodeToString (id : Identification) :
    Except IdentificationError (List Char) :=
  match endingFor id.protocol_version with
  | .error e => .error e
  | .ok ending =>
    let r := id.renderLine ending
    if utf8Len r > 255 then .error (.MaxLengthExceeded (utf8Len r) r)
    else
      match findNulByteIdx r 0 with
      | some i => .error (.ContainsNullCharacter i r)
      | none => .ok r

/-- The software-version/comments stage of `decode_from_string`, applied to
the text after the `-` that follows the version token.  When the text holds a
space, the software version is everything before the first space and the
comment region is `&rest[version.len()+1..rest.len()-end_len]`; otherwise the
software version is `&rest[0..rest.len()-end_len]` and the region is empty.
The comment is `None` exactly when the region is empty. -/
def Identification.decodeSoftware (pv : SSHVersion) (end_len : Nat)
    (rest2 : List Char) : Option (Except IdentificationError Identification) :=
  let step : Option (List Char × List Char) :=
    if containsChar rest2 ' ' then
      let v := takeUntilChar ' ' rest2
      match subChk (utf8Len rest2) end_len with
      | none => none
      | some e =>
        match byteSliceRange rest2 (utf8Len v + 1) e with
        | none => none
        | some r => some (v, r)
    else
      match subChk (utf8Len rest2) end_len with
      | none => none
      | some e =>
        match byteSliceRange rest2 0 e with
        | none => none
        | some sv => some (sv, [])
  match step with
  | none => none
  | some (sv, r4) =>
    some (.ok ⟨pv, sv,
      match r4.length with
      | 0 => none
      | _ + 1 => some r4⟩)

/-- The `rest.starts_with('-')` check of `decode_from_string` and the slice
`&rest[1..]` that removes the separator before the software version. -/
def Identification.decodePastEnding (pv : SSHVersion) (end_len : Nat)
    (rest1 : List Char) : Option (Except IdentificationError Identification) :=
  if startsWithL ['-'] rest1 = false then
    some (.error .MissingSoftwareVersion)
  else
    match byteSliceRange rest1 1 (utf8Len rest1) with
    | none => none
    | some rest2 => Identification.decodeSoftware pv end_len rest2

/-- The `InvalidEnding` construction of `decode_from_string`: slice the input
from byte `len - k` to its end (both the subtraction and the slice can panic). -/
def invalidEndingAt (s : List Char) (k : Nat) :
    Option (Except IdentificationError Identification) :=
  match subChk (utf8Len s) k with
  | none => none
  | some j =>
    match byteSliceRange s j (utf8Len s) with
    | none => none
    | some t => some (.error (.InvalidEnding t))

/-- The version-token dispatch of `decode_from_string`: read the token before
the first `-` of `rest0` (the text after `"SSH-"`), accept only `"2.0"` and
`"1.99"`, take `&rest[version.len()..]`, validate the whole input's terminator
for that version, then continue with the software-version stage. -/
def Identification.decodeVersioned (s rest0 : List Char) :
    Option (Except IdentificationError Identification) :=
  let version := takeUntilChar '-' rest0
  if version = "2.0".data then
    match byteSliceRange rest0 (utf8Len version) (utf8Len rest0) with
    | none => none
    | some rest1 =>
      if endsWithL ['\r', '\n'] s = false then invalidEndingAt s 3
      else Identification.decodePastEnding .Ver2 2 rest1
  else if version = "1.99".data then
    match byteSliceRange rest0 (utf8Len version) (utf8Len rest0) with
    | none => none
    | some rest1 =>
      if endsWithL ['\n'] s = false then invalidEndingAt s 2
      else Identification.decodePastEnding (.Ver1 99) 1 rest1
  else some (.error (.InvalidProtocolVersion version))

/-- `Identification::decode_from_string`: length and NUL validation, the
`"SSH-"` check (whose error path slices `&s[0..4]` and therefore panics on
inputs shorter than four bytes), `&s[4..]`, then the version dispatch. -/
def Identification.decodeFromString (s : List Char) :
    Option (Except IdentificationError Identification) :=
  if utf8Len s > 255 then
    some (.error (.MaxLengthExceeded (utf8Len s) s))
  else
    match findNulByteIdx s 0 with
    | some i => some (.error (.ContainsNullCharacter i s))
    | none =>
      if startsWithL "SSH-".data s = false then
        match byteSliceRange s 0 4 with
        | none => none
        | some t => some (.error (.InvalidStringBeginning t))
      else
        match byteSliceRange s 4 (utf8Len s) with
        | none => none
        | some rest0 => Identification.decodeVersioned s rest0

/-- Modelled from the spec, §4.1 step "renders ..." : the banner text
`"SSH-" + version + "-" + software_version + [" " + comments] + terminator`,
with terminator CR LF for V2 and LF for V1. -/
def specBannerText (id : Identification) : List Char :=
  let term : List Char :=
    match id.protocol_version with
    | .Ver2 => ['\r', '\n']
    | .Ver1 _ => ['\n']
  "SSH-".data ++ id.protocol_version.render ++ "-".data ++ id.software_version
    ++ (match id.comments with
        | some c => " ".data ++ c
        | none => [])
    ++ term

/-- Modelled from the spec, §4.1: "After rendering, fails with a Length error
if the result exceeds 255 bytes, or a NulByte error if it contains a NUL
character; otherwise returns the rendered text." -/
def specCheckBanner (r : List Char) : Except IdentificationError (List Char) :=
  if utf8Len r > 255 then .error (.MaxLengthExceeded (utf8Len r) r)
  else
    match findNulByteIdx r 0 with
    | some i => .error (.ContainsNullCharacter i r)
    | none => .ok r

/-- Modelled from the spec, §4.1: "any other V1 minor fails with an
Unsupported-version error before rendering", otherwise render and validate. -/
def specEncodeBanner (id : Identification) :
    Except IdentificationError (List Char) :=
  match id.protocol_version with
  | .Ver1 m =>
    if m ≠ 99 then
      .error (.UnsupportedProtocolVersion ("1.".data ++ Nat.toDigits 10 m))
    else specCheckBanner (specBannerText id)
  | .Ver2 => specCheckBanner (specBannerText id)

theorem utf8SizeN_pos (c : Char) : 1 ≤ utf8SizeN c := by
  unfold utf8SizeN
  repeat' split
  all_goals omega

theorem utf8SizeN_eq_one_iff (c : Char) : utf8SizeN c = 1 ↔ c.toNat < 128 := by
  unfold utf8SizeN
  repeat' split
  all_goals omega

theorem utf8Len_append (a b : List Char) :
    utf8Len (a ++ b) = utf8Len a + utf8Len b := by
  induction a with
  | nil => simp [utf8Len]
  | cons c cs ih => simp [utf8Len, ih, Nat.add_assoc]

theorem utf8Len_ascii {l : List Char} (h : ∀ c ∈ l, c.toNat < 128) :
    utf8Len l = l.length := by
  induction l with
  | nil => rfl
  | cons c cs ih =>
    have hc : utf8SizeN c = 1 :=
      (utf8SizeN_eq_one_iff c).mpr (h c (List.mem_cons_self c cs))
    have ht : utf8Len cs = cs.length :=
      ih fun x hx => h x (List.mem_cons_of_mem c hx)
    simp [utf8Len, hc, ht]
    omega

theorem length_le_utf8Len (l : List Char) : l.length ≤ utf8Len l := by
  induction l with
  | nil => simp [utf8Len]
  | cons c cs ih =>
    have := utf8SizeN_pos c
    simp [utf8Len]
    omega

theorem utf8Len_eq_length_iff (l : List Char) :
    utf8Len l = l.length ↔ ∀ c ∈ l, c.toNat < 128 := by
  induction l with
  | nil => simp [utf8Len]
  | cons c cs ih =>
    have h1 := utf8SizeN_pos c
    have h2 := length_le_utf8Len cs
    constructor
    · intro h
      simp only [utf8Len, List.length_cons] at h
      have hc : utf8SizeN c = 1 := by omega
      have ht : utf8Len cs = cs.length := by omega
      intro x hx
      rcases List.mem_cons.mp hx with hx | hx
      · exact hx ▸ (utf8SizeN_eq_one_iff c).mp hc
      · exact (ih.mp ht) x hx
    · intro h
      have hc : utf8SizeN c = 1 :=
        (utf8SizeN_eq_one_iff c).mpr (h c (List.mem_cons_self c cs))
      have ht : utf8Len cs = cs.length :=
        ih.mpr fun x hx => h x (List.mem_cons_of_mem c hx)
      simp [utf8Len, hc, ht]
      omega

theorem dropBytesChk_zero (l : List Char) : dropBytesChk l 0 = some l := by
  cases l <;> rfl

theorem takeBytesChk_zero (l : List Char) : takeBytesChk l 0 = some [] := by
  cases l <;> rfl

theorem startsWithL_append (p r : List Char) :
    startsWithL p (p ++ r) = true := by
  induction p with
  | nil => rfl
  | cons c cs ih => simp [startsWithL, ih]

theorem eq_append_drop_of_startsWithL {p s : List Char}
    (h : startsWithL p s = true) : s = p ++ s.drop p.length := by
  induction p generalizing s with
  | nil => simp
  | cons c cs ih =>
    cases s with
    | nil => simp [startsWithL] at h
    | cons d ds =>
      by_cases hc : c = d
      · subst hc
        have hs : startsWithL cs ds = true := by
          simpa [startsWithL] using h
        simpa using ih hs
      · simp [startsWithL, hc] at h

theorem endsWithL_append (a p : List Char) : endsWithL p (a ++ p) = true := by
  unfold endsWithL
  rw [List.reverse_append]
  exact startsWithL_append p.reverse a.reverse

theorem dropBytesChk_le {c : Char} {l : List Char} {k : Nat}
    (h : utf8SizeN c ≤ k) :
    dropBytesChk (c :: l) k = dropBytesChk l (k - utf8SizeN c) := by
  have h1 := utf8SizeN_pos c
  cases k with
  | zero => omega
  | succ k =>
    have e : dropBytesChk (c :: l) (k + 1)
        = if k + 1 < utf8SizeN c then none
          else dropBytesChk l (k + 1 - utf8SizeN c) := rfl
    rw [e, if_neg (by omega)]

theorem dropBytesChk_append (a r : List Char) :
    dropBytesChk (a ++ r) (utf8Len a) = some r := by
  induction a with
  | nil => simpa [utf8Len] using dropBytesChk_zero r
  | cons c cs ih =>
    have h1 := utf8SizeN_pos c
    have : utf8Len (c :: cs) = utf8SizeN c + utf8Len cs := rfl
    rw [List.cons_append, this,
      dropBytesChk_le (by omega), Nat.add_sub_cancel_left]
    exact ih

theorem takeBytesChk_le {c : Char} {l : List Char} {k : Nat}
    (h : utf8SizeN c ≤ k) :
    takeBytesChk (c :: l) k =
      match takeBytesChk l (k - utf8SizeN c) with
      | none => none
      | some t => some (c :: t) := by
  have h1 := utf8SizeN_pos c
  cases k with
  | zero => omega
  | succ k =>
    have e : takeBytesChk (c :: l) (k + 1)
        = if k + 1 < utf8SizeN c then none
          else
            match takeBytesChk l (k + 1 - utf8SizeN c) with
            | none => none
            | some t => some (c :: t) := rfl
    rw [e, if_neg (by omega)]

theorem takeBytesChk_append (a r : List Char) :
    takeBytesChk (a ++ r) (utf8Len a) = some a := by
  induction a with
  | nil => simpa [utf8Len] using takeBytesChk_zero r
  | cons c cs ih =>
    have h1 := utf8SizeN_pos c
    have h2 : utf8Len (c :: cs) = utf8SizeN c + utf8Len cs := rfl
    rw [List.cons_append, h2,
      takeBytesChk_le (by omega), Nat.add_sub_cancel_left, ih]

theorem byteSliceRange_mid (p m r : List Char) :
    byteSliceRange (p ++ (m ++ r)) (utf8Len p) (utf8Len p + utf8Len m) =
      some m := by
  unfold byteSliceRange
  rw [if_neg (by omega), dropBytesChk_append, Nat.add_sub_cancel_left]
  exact takeBytesChk_append m r

theorem byteSliceRange_drop (p r : List Char) :
    byteSliceRange (p ++ r) (utf8Len p) (utf8Len (p ++ r)) = some r := by
  have h := byteSliceRange_mid p r []
  rw [List.append_nil] at h
  rw [utf8Len_append]
  exact h

theorem dropBytesChk_ascii {l : List Char} (h : ∀ c ∈ l, c.toNat < 128) :
    ∀ k, k ≤ l.length → dropBytesChk l k = some (l.drop k) := by
  induction l with
  | nil =>
    intro k hk
    have hk0 : k = 0 := by simpa using hk
    subst hk0
    exact dropBytesChk_zero []
  | cons c cs ih =>
    intro k hk
    cases k with
    | zero => simpa using dropBytesChk_zero (c :: cs)
    | succ k =>
      have hc : utf8SizeN c = 1 :=
        (utf8SizeN_eq_one_iff c).mpr (h c (List.mem_cons_self c cs))
      rw [dropBytesChk_le (by omega), hc, Nat.add_sub_cancel]
      simpa using ih (fun x hx => h x (List.mem_cons_of_mem c hx)) k
        (by simpa using hk)

theorem takeUntilChar_not_mem {t : Char} {l : List Char} (h : t ∉ l) :
    takeUntilChar t l = l := by
  induction l with
  | nil => rfl
  | cons c cs ih =>
    have hc : c ≠ t := fun hc => h (hc ▸ List.mem_cons_self c cs)
    simp [takeUntilChar, hc, ih fun hm => h (List.mem_cons_of_mem c hm)]

theorem takeUntilChar_append {t : Char} {a : List Char} (b : List Char)
    (h : t ∉ a) : takeUntilChar t (a ++ t :: b) = a := by
  induction a with
  | nil => simp [takeUntilChar]
  | cons c cs ih =>
    have hc : c ≠ t := fun hc => h (hc ▸ List.mem_cons_self c cs)
    simp [takeUntilChar, hc, ih fun hm => h (List.mem_cons_of_mem c hm)]

theorem takeUntilChar_append_drop (t : Char) (l : List Char) :
    ∃ r, l = takeUntilChar t l ++ r := by
  induction l with
  | nil => exact ⟨[], rfl⟩
  | cons c cs ih =>
    by_cases hc : c = t
    · exact ⟨c :: cs, by simp [takeUntilChar, hc]⟩
    · obtain ⟨r, hr⟩ := ih
      exact ⟨r, by simpa [takeUntilChar, hc] using hr⟩

theorem containsChar_eq_true_iff (l : List Char) (t : Char) :
    containsChar l t = true ↔ t ∈ l := by
  induction l with
  | nil => simp [containsChar]
  | cons c cs ih =>
    by_cases hc : c = t
    · simp [containsChar, hc, ih]
    · simp only [containsChar, if_neg hc, ih, List.mem_cons]
      constructor
      · exact fun h => Or.inr h
      · rintro (h | h)
        · exact absurd h.symm hc
        · exact h

theorem findNulByteIdx_eq_none {l : List Char} (h : '\x00' ∉ l) :
    ∀ acc, findNulByteIdx l acc = none := by
  induction l with
  | nil => intro acc; rfl
  | cons c cs ih =>
    intro acc
    have hc : c ≠ '\x00' := fun hc => h (hc ▸ List.mem_cons_self c cs)
    simp [findNulByteIdx, hc, ih fun hm => h (List.mem_cons_of_mem c hm)]

theorem fromBeBytes4_toBe_append {n : Nat} (h : n < 2 ^ 32)
    (rest : List Nat) : fromBeBytes4 (toBeBytes32 n ++ rest) = n := by
  simp [toBeBytes32, fromBeBytes4]
  omega

theorem drop4_toBe_append (x : Nat) (body : List Nat) :
    (toBeBytes32 x ++ body).drop 4 = body := by
  simp [toBeBytes32]

theorem containsChar_eq_false_iff (l : List Char) (t : Char) :
    containsChar l t = false ↔ t ∉ l := by
  rw [← containsChar_eq_true_iff]
  cases containsChar l t <;> simp

theorem subChk_add (a b : Nat) : subChk (a + b) b = some a := by
  simp [subChk]

theorem decodeSoftware_nospace (pv : SSHVersion) {end_len : Nat}
    {sw ending : List Char} (hsw : ' ' ∉ sw) (hend : ' ' ∉ ending)
    (hlen : utf8Len ending = end_len) :
    Identification.decodeSoftware pv end_len (sw ++ ending) =
      some (.ok ⟨pv, sw, none⟩) := by
  have h1 : containsChar (sw ++ ending) ' ' = false :=
    (containsChar_eq_false_iff _ _).mpr fun hm => by
      rcases List.mem_append.mp hm with h | h
      exacts [hsw h, hend h]
  have h2 : subChk (utf8Len (sw ++ ending)) end_len = some (utf8Len sw) := by
    rw [utf8Len_append, hlen]
    exact subChk_add _ _
  have h3 : byteSliceRange (sw ++ ending) 0 (utf8Len sw) = some sw := by
    simpa [utf8Len] using byteSliceRange_mid [] sw ending
  simp [Identification.decodeSoftware, h1, h2, h3]

theorem decodeSoftware_space (pv : SSHVersion) {end_len : Nat}
    {sw c ending : List Char} (hsw : ' ' ∉ sw)
    (hlen : utf8Len ending = end_len) (hc : c ≠ []) :
    Identification.decodeSoftware pv end_len (sw ++ ' ' :: (c ++ ending)) =
      some (.ok ⟨pv, sw, some c⟩) := by
  have hsp : utf8SizeN ' ' = 1 := by decide
  have h1 : containsChar (sw ++ ' ' :: (c ++ ending)) ' ' = true :=
    (containsChar_eq_true_iff _ _).mpr (by simp)
  have h2 : takeUntilChar ' ' (sw ++ ' ' :: (c ++ ending)) = sw :=
    takeUntilChar_append _ hsw
  have hL : utf8Len (sw ++ ' ' :: (c ++ ending)) =
      (utf8Len sw + 1 + utf8Len c) + end_len := by
    rw [utf8Len_append]
    show utf8Len sw + (utf8SizeN ' ' + utf8Len (c ++ ending)) = _
    rw [hsp, utf8Len_append, hlen]
    omega
  have h3 : subChk (utf8Len (sw ++ ' ' :: (c ++ ending))) end_len =
      some (utf8Len sw + 1 + utf8Len c) := by
    rw [hL]
    exact subChk_add _ _
  have h4 : byteSliceRange (sw ++ ' ' :: (c ++ ending)) (utf8Len sw + 1)
      (utf8Len sw + 1 + utf8Len c) = some c := by
    have hmid := byteSliceRange_mid (sw ++ [' ']) c ending
    have ha : (sw ++ [' ']) ++ (c ++ ending) = sw ++ ' ' :: (c ++ ending) := by
      simp
    have hb : utf8Len (sw ++ [' ']) = utf8Len sw + 1 := by
      rw [utf8Len_append]
      simp [utf8Len, hsp]
    rw [ha, hb] at hmid
    exact hmid
  cases c with
  | nil => exact absurd rfl hc
  | cons a as =>
    simp only [List.cons_append] at h1 h2 h3 h4
    simp [Identification.decodeSoftware, h1, h2, h3, h4]

theorem decodePastEnding_cons (pv : SSHVersion) (end_len : Nat)
    (tail : List Char) :
    Identification.decodePastEnding pv end_len ('-' :: tail) =
      Identification.decodeSoftware pv end_len tail := by
  have h1 : startsWithL ['-'] ('-' :: tail) = true := by
    simp [startsWithL]
  have h2 : byteSliceRange ('-' :: tail) 1 (utf8Len ('-' :: tail)) =
      some tail := by
    have := byteSliceRange_drop ['-'] tail
    simpa [utf8Len, show utf8SizeN '-' = 1 by decide] using this
  simp [Identification.decodePastEnding, h1, h2]

theorem decodeVersioned_v2 {s : List Char} (tail : List Char)
    (hs : endsWithL ['\r', '\n'] s = true) :
    Identification.decodeVersioned s ("2.0".data ++ '-' :: tail) =
      Identification.decodePastEnding .Ver2 2 ('-' :: tail) := by
  have hv : takeUntilChar '-' ("2.0".data ++ '-' :: tail) = "2.0".data :=
    takeUntilChar_append _ (by decide)
  have hslice := byteSliceRange_drop "2.0".data ('-' :: tail)
  simp only [List.cons_append, List.append_assoc] at hv hslice ⊢
  simp at hv hslice
  simp [Identification.decodeVersioned, hv, hslice, hs]

theorem decodeVersioned_v199 {s : List Char} (tail : List Char)
    (hs : endsWithL ['\n'] s = true) :
    Identification.decodeVersioned s ("1.99".data ++ '-' :: tail) =
      Identification.decodePastEnding (.Ver1 99) 1 ('-' :: tail) := by
  have hv : takeUntilChar '-' ("1.99".data ++ '-' :: tail) = "1.99".data :=
    takeUntilChar_append _ (by decide)
  have hslice := byteSliceRange_drop "1.99".data ('-' :: tail)
  simp at hv hslice
  simp [Identification.decodeVersioned, hv, hslice, hs]

theorem decodeFromString_front {s : List Char} (h255 : ¬ utf8Len s > 255)
    (hnul : findNulByteIdx s 0 = none) {tail : List Char}
    (hs : s = "SSH-".data ++ tail) :
    Identification.decodeFromString s =
      Identification.decodeVersioned s tail := by
  have h1 : startsWithL "SSH-".data s = true := by
    rw [hs]
    exact startsWithL_append _ _
  have h2 : byteSliceRange s 4 (utf8Len s) = some tail := by
    rw [hs]
    have := byteSliceRange_drop "SSH-".data tail
    rwa [show utf8Len "SSH-".data = 4 from by decide] at this
  simp [Identification.decodeFromString, h255, hnul, h1, h2]

theorem decodeSoftware_of_comments (pv : SSHVersion) (end_len : Nat)
    (sw : List Char) (com : Option (List Char)) (ending : List Char)
    (hsw : ' ' ∉ sw) (hend : ' ' ∉ ending) (hlen : utf8Len ending = end_len)
    (hcom : com ≠ some []) :
    Identification.decodeSoftware pv end_len
      (sw ++ (commentsPart com ++ ending)) =
      some (.ok ⟨pv, sw, com⟩) := by
  cases com with
  | none => simpa [commentsPart] using decodeSoftware_nospace pv hsw hend hlen
  | some c =>
    have hc : c ≠ [] := fun h => hcom (by rw [h])
    simpa [commentsPart] using decodeSoftware_space pv hsw hlen hc

theorem tryEncode_ok_parts {id : Identification} {s : List Char}
    (h : id.tryEncodeToString = .ok s) :
    ∃ ending, endingFor id.protocol_version = .ok ending ∧
      s = id.renderLine ending ∧ ¬ utf8Len s > 255 ∧
      findNulByteIdx s 0 = none := by
  obtain ⟨ending, he⟩ : ∃ ending, endingFor id.protocol_version = .ok ending := by
    cases he : endingFor id.protocol_version with
    | error e =>
      simp only [Identification.tryEncodeToString, he] at h
      exact Except.noConfusion h
    | ok ending => exact ⟨ending, rfl⟩
  by_cases hlt : utf8Len (id.renderLine ending) > 255
  · simp only [Identification.tryEncodeToString, he, if_pos hlt] at h
    exact Except.noConfusion h
  · cases hN : findNulByteIdx (id.renderLine ending) 0 with
    | some i =>
      simp only [Identification.tryEncodeToString, he, if_neg hlt, hN] at h
      exact Except.noConfusion h
    | none =>
      simp only [Identification.tryEncodeToString, he, if_neg hlt, hN] at h
      rw [Except.ok.injEq] at h
      subst h
      exact ⟨ending, he, rfl, hlt, hN⟩

/-- C4 (counterexample): the round trip fails for an empty comment.
`Identification{V2, "sw", Some("")}` encodes to `"SSH-2.0-sw \r\n"` (note the
trailing space before the terminator), but decoding that banner yields
comments `None`, because `decode_from_string` maps an empty comment region to
`None`.  So `decode(encode(x)) = Ok(x')` with `x' ≠ x`, refuting the claim
"including when comments is ... an empty ... comment". -/
theorem C4_roundtrip_counterexample :
    Identification.tryEncodeToString ⟨.Ver2, "sw".data, some []⟩ =
      .ok "SSH-2.0-sw \r\n".data ∧
    Identification.decodeFromString "SSH-2.0-sw \r\n".data =
      some (.ok ⟨.Ver2, "sw".data, none⟩) ∧
    (⟨.Ver2, "sw".data, none⟩ : Identification) ≠
      ⟨.Ver2, "sw".data, some []⟩ :=
  ⟨by decide, by decide, by decide⟩

/-- C4 (amended): for every `Identification` whose software version contains
neither `-` nor space, whose comments field is not `Some("")` (an empty
comment cannot survive the trip: it decodes as absent), and on which
`try_encode_to_string` succeeds with banner `s`, `decode_from_string s`
returns exactly the original value — comments absent or non-empty (including
space-containing comments) both round-trip. -/
theorem C4_roundtrip_amended (x : Identification) (s : List Char)
    (hdash : ('-' : Char) ∉ x.software_version)
    (hsp : (' ' : Char) ∉ x.software_version)
    (hcom : x.comments ≠ some [])
    (henc : x.tryEncodeToString = .ok s) :
    Identification.decodeFromString s = some (.ok x) := by
  obtain ⟨v, sw, com⟩ := x
  obtain ⟨ending, hend, hs, hlt, hnul⟩ := tryEncode_ok_parts henc
  cases v with
  | Ver2 =>
    have hendv : ending = ['\r', '\n'] := by
      simpa [endingFor] using hend.symm
    subst hendv
    have hshape : s = "SSH-".data ++ ("2.0".data ++ '-' ::
        (sw ++ (commentsPart com ++ ['\r', '\n']))) := by
      rw [hs]
      simp [Identification.renderLine, SSHVersion.render, List.append_assoc]
    have hcr : endsWithL ['\r', '\n'] s = true := by
      have h2 : s = ("SSH-".data ++ ("2.0".data ++ ('-' ::
          (sw ++ commentsPart com)))) ++ ['\r', '\n'] := by
        rw [hs]
        simp [Identification.renderLine, SSHVersion.render, List.append_assoc]
      rw [h2]
      exact endsWithL_append _ _
    rw [decodeFromString_front hlt hnul hshape, decodeVersioned_v2 _ hcr,
      decodePastEnding_cons]
    exact decodeSoftware_of_comments .Ver2 2 sw com ['\r', '\n'] hsp
      (by decide) (by decide) hcom
  | Ver1 m =>
    by_cases hm : m = 99
    · subst hm
      have hendv : ending = ['\n'] := by
        simpa [endingFor] using hend.symm
      subst hendv
      have hrender : SSHVersion.render (SSHVersion.Ver1 99) = "1.99".data := by
        decide
      have hshape : s = "SSH-".data ++ ("1.99".data ++ '-' ::
          (sw ++ (commentsPart com ++ ['\n']))) := by
        rw [hs]
        simp [Identification.renderLine, hrender, List.append_assoc]
      have hlf : endsWithL ['\n'] s = true := by
        have h2 : s = ("SSH-".data ++ ("1.99".data ++ ('-' ::
            (sw ++ commentsPart com)))) ++ ['\n'] := by
          rw [hs]
          simp [Identification.renderLine, hrender, List.append_assoc]
        rw [h2]
        exact endsWithL_append _ _
      rw [decodeFromString_front hlt hnul hshape, decodeVersioned_v199 _ hlf,
        decodePastEnding_cons]
      exact decodeSoftware_of_comments (.Ver1 99) 1 sw com ['\n'] hsp
        (by decide) (by decide) hcom
    · exfalso
      simp [endingFor, hm] at hend

/-- C4 (witness): a concrete application of the amended round trip, with a
space-containing comment. -/
theorem C4_roundtrip_witness :
    Identification.decodeFromString "SSH-2.0-a b c\r\n".data =
      some (.ok ⟨.Ver2, "a".data, some "b c".data⟩) :=
  C4_roundtrip_amended ⟨.Ver2, "a".data, some "b c".data⟩
    "SSH-2.0-a b c\r\n".data (by decide) (by decide) (by decide) (by decide)

theorem invalidEndingAt_ne_ok (s : List Char) (k : Nat)
    (ident : Identification) : invalidEndingAt s k ≠ some (.ok ident) := by
  intro h
  unfold invalidEndingAt at h
  split at h
  · simp at h
  · split at h
    · simp at h
    · simp at h

theorem decodeSoftware_ok_pv {pv : SSHVersion} {end_len : Nat}
    {rest2 : List Char} {ident : Identification}
    (h : Identification.decodeSoftware pv end_len rest2 = some (.ok ident)) :
    ident.protocol_version = pv := by
  simp only [Identification.decodeSoftware] at h
  repeat' split at h
  all_goals
    first
    | exact Option.noConfusion h
    | exact Except.noConfusion (Option.some.inj h)
    | (have h2 := Except.ok.inj (Option.some.inj h)
       subst h2
       rfl)

theorem decodePastEnding_ok_pv {pv : SSHVersion} {end_len : Nat}
    {rest1 : List Char} {ident : Identification}
    (h : Identification.decodePastEnding pv end_len rest1 =
      some (.ok ident)) :
    ident.protocol_version = pv := by
  simp only [Identification.decodePastEnding] at h
  split at h
  · simp at h
  · split at h
    · simp at h
    · exact decodeSoftware_ok_pv h

theorem decodeFromString_ok_no_crlf {s : List Char} {ident : Identification}
    (h : Identification.decodeFromString s = some (.ok ident))
    (hcr : endsWithL ['\r', '\n'] s = false) :
    ident.protocol_version = .Ver1 99 := by
  simp only [Identification.decodeFromString,
    Identification.decodeVersioned] at h
  repeat' split at h
  all_goals try exact absurd h (by simp)
  all_goals try exact absurd h (invalidEndingAt_ne_ok _ _ _)
  all_goals exact decodePastEnding_ok_pv h

theorem byteSliceRange_ascii_drop {s : List Char}
    (hA : ∀ c ∈ s, c.toNat < 128) {k : Nat} (hk : k ≤ s.length) :
    byteSliceRange s k (utf8Len s) = some (s.drop k) := by
  have hlen : utf8Len s = s.length := utf8Len_ascii hA
  have hdropA : ∀ c ∈ s.drop k, c.toNat < 128 := fun c hc =>
    hA c (List.drop_subset _ _ hc)
  have hdl : utf8Len (s.drop k) = s.length - k := by
    rw [utf8Len_ascii hdropA, List.length_drop]
  unfold byteSliceRange
  rw [if_neg (by omega), dropBytesChk_ascii hA k hk,
    show utf8Len s - k = utf8Len (s.drop k) by omega]
  simpa using takeBytesChk_append (s.drop k) []

theorem decode_invalid_ending_ascii {s : List Char}
    (hA : ∀ c ∈ s, c.toNat < 128) (h255 : ¬ utf8Len s > 255)
    (hnul : ('\x00' : Char) ∉ s)
    (hssh : startsWithL "SSH-".data s = true)
    (hver : takeUntilChar '-' (s.drop 4) = "2.0".data)
    (hcr : endsWithL ['\r', '\n'] s = false) :
    Identification.decodeFromString s =
      some (.error (.InvalidEnding (s.drop (s.length - 3)))) := by
  have hlen : utf8Len s = s.length := utf8Len_ascii hA
  have hdrop4 : s = "SSH-".data ++ s.drop 4 := by
    simpa using eq_append_drop_of_startsWithL hssh
  have hlen4 : 4 ≤ s.length := by
    have h := congrArg List.length hdrop4
    simp at h
    omega
  have hsub : subChk (utf8Len s) 3 = some (s.length - 3) := by
    unfold subChk
    rw [if_pos (by omega), hlen]
  have hslice : byteSliceRange s (s.length - 3) (utf8Len s) =
      some (s.drop (s.length - 3)) :=
    byteSliceRange_ascii_drop hA (by omega)
  have hiea : invalidEndingAt s 3 =
      some (.error (.InvalidEnding (s.drop (s.length - 3)))) := by
    unfold invalidEndingAt
    simp [hsub, hslice]
  obtain ⟨r, hr⟩ := takeUntilChar_append_drop '-' (s.drop 4)
  rw [hver] at hr
  have hbs : byteSliceRange (s.drop 4)
      (utf8Len (takeUntilChar '-' (s.drop 4))) (utf8Len (s.drop 4)) =
      some r := by
    rw [hver, hr]
    exact byteSliceRange_drop _ _
  simp only [hver] at hbs
  rw [decodeFromString_front h255 (findNulByteIdx_eq_none hnul 0) hdrop4]
  simp [Identification.decodeVersioned, hver, hbs, hcr, hiea]

theorem utf8BytesL_ascii {m : List Char} (hA : ∀ c ∈ m, c.toNat < 128) :
    utf8BytesL m = m.map (fun c => c.toNat % 256) := by
  induction m with
  | nil => rfl
  | cons c cs ih =>
    have hc : c.toNat < 128 := hA c (List.mem_cons_self c cs)
    have h1 : charUtf8 c = [c.toNat] := by
      unfold charUtf8
      rw [if_pos hc]
    simp [utf8BytesL, h1,
      ih fun x hx => hA x (List.mem_cons_of_mem c hx),
      Nat.mod_eq_of_lt (show c.toNat < 256 by omega)]

/-- C1: the claim says `Packet::encode` emits a 4-byte big-endian length
`1 + len(payload) + p`, the padding length, the payload, the padding and the
MAC tag.  The code instead emits the little-endian `payload.len()` (not
`1 + len + p`), the padding-length byte `len % max(8, block)`, and the
sequential padding bytes — and never the payload or any tag.  At payload
`[42]` with block size 8 the output is `[1,0,0,0,1,0]`: little-endian length
1, padding length 1, padding byte 0; the payload byte 42 never appears. -/
theorem C1_packet_encode_at_failing_input :
    Packet.encode ⟨[42], ⟨0⟩, 8⟩ = [1, 0, 0, 0, 1, 0] ∧
    (42 : Nat) ∉ Packet.encode ⟨[42], ⟨0⟩, 8⟩ := by
  constructor
  · rfl
  · decide

/-- C2: the claim requires the emitted padding length `p ∈ [4,255]` with
`(1 + len(payload) + p) ≡ 0 mod max(8, block)`.  For the empty payload and
block size 8 the code computes `p = 0 % 8 = 0`, which is below the floor of
4, and `(1 + 0 + 0) % 8 = 1 ≠ 0`; `encode` emits that zero padding-length
byte and no padding at all. -/
theorem C2_padding_violates_bounds :
    Packet.paddingLength 0 8 = 0 ∧
    ¬ (4 ≤ Packet.paddingLength 0 8 ∧ Packet.paddingLength 0 8 ≤ 255 ∧
        (1 + 0 + Packet.paddingLength 0 8) % max 8 8 = 0) ∧
    Packet.encode ⟨[], ⟨0⟩, 8⟩ = [0, 0, 0, 0, 0] := by
  refine ⟨rfl, ?_, rfl⟩
  decide

/-- C3: `decode_from_string` is not total.  On the two-byte input `"ab"` the
`"SSH-"` check fails and the error path evaluates `identification_string[0..4]`,
a byte slice past the end of the string, which panics (modelled as `none`)
instead of returning the typed `InvalidStringBeginning` error. -/
theorem C3_decode_panics_on_short_input :
    Identification.decodeFromString ['a', 'b'] = none := by decide

/-- C5: `try_encode_to_string` agrees pointwise with the specification's
description of the banner encoder (`specEncodeBanner`, written from §4.1:
render `"SSH-" + version + "-" + software [+ " " + comments] + terminator`
with CR LF for V2 and LF for V1(99), reject other V1 minors before rendering,
then the 255-byte and NUL checks in that order), and concretely the default
identification `{V2, "rssh_0.1", None}` encodes to `"SSH-2.0-rssh_0.1\r\n"`. -/
theorem C5_encode_banner_spec :
    (∀ id : Identification,
      Identification.tryEncodeToString id = specEncodeBanner id) ∧
    Identification.tryEncodeToString Identification.default_ident =
      .ok "SSH-2.0-rssh_0.1\r\n".data := by
  constructor
  · intro id
    obtain ⟨v, sw, com⟩ := id
    cases v with
    | Ver2 =>
      simp [Identification.tryEncodeToString, specEncodeBanner,
        specCheckBanner, specBannerText, Identification.renderLine,
        endingFor, commentsPart, SSHVersion.render]
    | Ver1 m =>
      by_cases hm : m = 99
      · subst hm
        simp [Identification.tryEncodeToString, specEncodeBanner,
          specCheckBanner, specBannerText, Identification.renderLine,
          endingFor, commentsPart, SSHVersion.render]
      · simp [Identification.tryEncodeToString, specEncodeBanner,
          specCheckBanner, specBannerText, Identification.renderLine,
          endingFor, commentsPart, SSHVersion.render, hm]
  · decide

/-- C6 (counterexample): the banner `"SSH-2.0-a€\n"` has version token `2.0`,
ends in a bare LF (no CR), passes the length/NUL checks — yet decoding
returns the panic value `none`, not `InvalidEnding`: the `InvalidEnding`
error path slices the input at byte `len - 3`, which falls inside the
three-byte UTF-8 encoding of `€`. -/
theorem C6_bare_lf_counterexample :
    startsWithL "SSH-".data "SSH-2.0-a€\n".data = true ∧
    takeUntilChar '-' ("SSH-2.0-a€\n".data.drop 4) = "2.0".data ∧
    endsWithL ['\n'] "SSH-2.0-a€\n".data = true ∧
    endsWithL ['\r', '\n'] "SSH-2.0-a€\n".data = false ∧
    utf8Len "SSH-2.0-a€\n".data ≤ 255 ∧
    Identification.decodeFromString "SSH-2.0-a€\n".data = none :=
  ⟨by decide, by decide, by decide, by decide, by decide, by decide⟩

/-- C6 (amended): (1) decoding accepts a banner not terminated by CR LF only
with protocol version V1(99) — a banner whose version token is 2.0 is never
accepted without CR LF; and (2) for ASCII banners that pass the length, NUL
and `"SSH-"` checks, have version token `2.0`, and end in LF without a
preceding CR, decoding fails with `InvalidEnding` carrying the last three
bytes.  (For non-ASCII banners the error path may panic instead, as the
counterexample shows.) -/
theorem C6_bare_lf_amended :
    (∀ (s : List Char) (ident : Identification),
      Identification.decodeFromString s = some (.ok ident) →
      endsWithL ['\r', '\n'] s = false →
      ident.protocol_version = .Ver1 99) ∧
    (∀ s : List Char, (∀ c ∈ s, c.toNat < 128) → ¬ utf8Len s > 255 →
      ('\x00' : Char) ∉ s → startsWithL "SSH-".data s = true →
      takeUntilChar '-' (s.drop 4) = "2.0".data →
      endsWithL ['\n'] s = true → endsWithL ['\r', '\n'] s = false →
      Identification.decodeFromString s =
        some (.error (.InvalidEnding (s.drop (s.length - 3))))) :=
  ⟨fun _ _ h hcr => decodeFromString_ok_no_crlf h hcr,
   fun _ hA h255 hnul hssh hver _ hcr =>
     decode_invalid_ending_ascii hA h255 hnul hssh hver hcr⟩

/-- C6 (witness): the ASCII V2 banner `"SSH-2.0-ab\n"`, terminated by a bare
LF, decodes to `InvalidEnding` with the last three bytes `"ab\n"`. -/
theorem C6_bare_lf_witness :
    Identification.decodeFromString "SSH-2.0-ab\n".data =
      some (.error (.InvalidEnding
        ("SSH-2.0-ab\n".data.drop ("SSH-2.0-ab\n".data.length - 3)))) :=
  C6_bare_lf_amended.2 "SSH-2.0-ab\n".data (by decide) (by decide) (by decide)
    (by decide) (by decide) (by decide) (by decide)

/-- C7 (counterexample): for the single rendered name `"é"` the body emitted
by `NameList::encode` is the single truncated byte `233 = 0xE9`, while the
joined-name (UTF-8) bytes are `[195, 169]`; the length prefix says 2 bytes
but only one body byte follows, so the output is not
`length prefix ++ joined-name bytes`. -/
theorem C7_namelist_counterexample :
    NameList.encode [['é']] = [0, 0, 0, 2, 233] ∧
    toBeBytes32 (utf8Len (NameList.joined [['é']])) ++
      utf8BytesL (NameList.joined [['é']]) = [0, 0, 0, 2, 195, 169] ∧
    NameList.encode [['é']] ≠
      toBeBytes32 (utf8Len (NameList.joined [['é']])) ++
        utf8BytesL (NameList.joined [['é']]) :=
  ⟨by decide, by decide, by decide⟩

/-- C7 (amended): whenever the comma-joined rendered text is pure ASCII,
`NameList::encode` is exactly the 4-byte big-endian byte length of the joined
text (as a `u32`) followed by the joined text's bytes; and the empty list
encodes to the four zero bytes with no body. -/
theorem C7_namelist_amended :
    (∀ l : List (List Char), (∀ c ∈ NameList.joined l, c.toNat < 128) →
      NameList.encode l =
        toBeBytes32 (utf8Len (NameList.joined l) % 2 ^ 32) ++
          utf8BytesL (NameList.joined l)) ∧
    NameList.encode [] = [0, 0, 0, 0] := by
  constructor
  · intro l hA
    unfold NameList.encode
    rw [utf8BytesL_ascii hA]
  · decide

/-- C7 (witness): the amended statement applied to the list `["a", "b"]`. -/
theorem C7_namelist_witness :
    NameList.encode [['a'], ['b']] =
      toBeBytes32 (utf8Len (NameList.joined [['a'], ['b']]) % 2 ^ 32) ++
        utf8BytesL (NameList.joined [['a'], ['b']]) :=
  C7_namelist_amended.1 [['a'], ['b']] (by decide)

/-- C8: `KexInitMessage::encode` emits the one-byte tag 20, the 16 raw cookie
bytes, the ten name lists in the fixed source order, one boolean byte and
four reserved zero bytes, and its total length is
`1 + 16 + Σ namelist wire sizes + 1 + 4`. -/
theorem C8_kexinit_layout (m : KexInitMessage) (hc : m.cookie.length = 16) :
    KexInitMessage.encode m =
      [20] ++ m.cookie ++ NameList.encode m.kex_algorithms ++
        NameList.encode m.server_host_key_algorithms ++
        NameList.encode m.encryption_algorithms_client_to_server ++
        NameList.encode m.encryption_algorithms_server_to_client ++
        NameList.encode m.mac_algorithms_client_to_server ++
        NameList.encode m.mac_algorithms_server_to_client ++
        NameList.encode m.compression_algorithms_client_to_server ++
        NameList.encode m.compression_algorithms_server_to_client ++
        NameList.encode m.languages_client_to_server ++
        NameList.encode m.languages_server_to_client ++
        [if m.first_kex_packet_follows then 1 else 0] ++ [0, 0, 0, 0] ∧
    (KexInitMessage.encode m).length =
      1 + 16 +
        ((NameList.encode m.kex_algorithms).length +
          (NameList.encode m.server_host_key_algorithms).length +
          (NameList.encode m.encryption_algorithms_client_to_server).length +
          (NameList.encode m.encryption_algorithms_server_to_client).length +
          (NameList.encode m.mac_algorithms_client_to_server).length +
          (NameList.encode m.mac_algorithms_server_to_client).length +
          (NameList.encode m.compression_algorithms_client_to_server).length +
          (NameList.encode m.compression_algorithms_server_to_client).length +
          (NameList.encode m.languages_client_to_server).length +
          (NameList.encode m.languages_server_to_client).length) + 1 + 4 := by
  constructor
  · rfl
  · simp only [KexInitMessage.encode, List.length_append, List.length_cons,
      List.length_nil, toBeBytes32, hc]
    omega

/-- C8 (witness): the all-empty `KexInitMessage` of the test binary encodes
to `1 + 16 + 10·4 + 1 + 4 = 62` bytes. -/
theorem C8_kexinit_witness :
    (KexInitMessage.encode kexInitExample).length = 62 := by
  have h := (C8_kexinit_layout kexInitExample (by decide)).2
  simpa [kexInitExample, NameList.encode, NameList.joined, utf8Len,
    toBeBytes32] using h

/-- C9: `Packet::encode` is a deterministic function of the payload and the
cipher's block size alone: two packets with equal payloads and equal block
sizes encode identically whatever their `Mac` values, and the padding bytes
are the fixed sequence `0, 1, ..., p-1` (no randomness). -/
theorem C9_encode_mac_independent (p1 p2 : Packet)
    (hpl : p1.payload = p2.payload) (hbs : p1.block_size = p2.block_size) :
    Packet.encode p1 = Packet.encode p2 ∧
    Packet.encode p1 =
      toLeBytes32 (p1.payload.length % 2 ^ 32) ++
        [Packet.paddingLength p1.payload.length p1.block_size % 256] ++
        (List.range (Packet.paddingLength p1.payload.length p1.block_size)).map
          (fun i => i % 256) := by
  constructor
  · unfold Packet.encode
    rw [hpl, hbs]
  · rfl

/-- C9 (witness): two packets with payload `[5]`, block size 8 and distinct
`Mac` values have identical encodings. -/
theorem C9_encode_mac_independent_witness :
    Packet.encode ⟨[5], ⟨0⟩, 8⟩ = Packet.encode ⟨[5], ⟨7⟩, 8⟩ :=
  (C9_encode_mac_independent ⟨[5], ⟨0⟩, 8⟩ ⟨[5], ⟨7⟩, 8⟩ rfl rfl).1

/-- C10: reading the 4-byte big-endian prefix of `NameList::encode` back
gives the UTF-8 byte length of the joined text, the body holds one byte per
character, and the prefix equals the body's byte count exactly when the
joined text is pure ASCII. -/
theorem C10_namelist_ascii_iff (l : List (List Char))
    (h : utf8Len (NameList.joined l) < 2 ^ 32) :
    fromBeBytes4 (NameList.encode l) = utf8Len (NameList.joined l) ∧
    (List.drop 4 (NameList.encode l)).length = (NameList.joined l).length ∧
    (utf8Len (NameList.joined l) = (NameList.joined l).length ↔
      ∀ c ∈ NameList.joined l, c.toNat < 128) := by
  refine ⟨?_, ?_, utf8Len_eq_length_iff _⟩
  · unfold NameList.encode
    rw [Nat.mod_eq_of_lt h]
    exact fromBeBytes4_toBe_append h _
  · unfold NameList.encode
    rw [drop4_toBe_append]
    simp

/-- C10 (witness): the statement applied to the singleton list `["x"]`. -/
theorem C10_namelist_ascii_iff_witness :
    fromBeBytes4 (NameList.encode [['x']]) =
      utf8Len (NameList.joined [['x']]) ∧
    (List.drop 4 (NameList.encode [['x']])).length =
      (NameList.joined [['x']]).length ∧
    (utf8Len (NameList.joined [['x']]) = (NameList.joined [['x']]).length ↔
      ∀ c ∈ NameList.joined [['x']], c.toNat < 128) :=
  C10_namelist_ascii_iff [['x']] (by decide)
